import Mathlib

/- Verification of the detection-evaluation module
   train/sunrgbd_eval/eval_det.py (voc_ap, eval_det_cls, eval_det).

   Modelling choices:
   - numeric values (scores, IoU values, recall/precision, AP) are exact
     rationals;
   - bounding boxes are opaque (type parameter): the 3D IoU computation
     (get_iou_cc, backed by the external box_ops_cc binary) is an external
     collaborator, so every function is parameterized by an iou function;
   - Python dicts are association lists (Nat keys for image ids, String
     keys for class names), iterated in insertion order like Python dicts;
   - np.argsort(-confidence) is modelled as a descending insertion sort of
     the flattened detection rows (the source's quicksort leaves the order
     of equal scores unspecified; any descending rearrangement is faithful);
   - ovmax = -np.inf is modelled by an Option state in the inner scan:
     none stands for -inf, which every finite IoU value strictly exceeds;
   - the mutable matched masks (class_recs[img]['det']) additionally get an
     explicit store-based model (DetStore) used for the frame and
     idempotence claims: each mask is a cell of the store addressed by
     index, freshly allocated per evaluation call. -/

namespace EvalDet

/-- np.finfo(np.float64).eps, the guard constant in the precision
denominator. -/
def eps : ℚ := 1 / 2 ^ 52

/-- Maximum of a list of sampled precisions, 0 when the selection is empty:
the shape of the p = np.max(prec[rec >= t]) / p = 0 branch in voc_ap. -/
def maxOrZero : List ℚ → ℚ
  | [] => 0
  | p :: ps => ps.foldl max p

/-- One term of the 11-point loop of voc_ap: the selected precisions are
those zip-aligned with a recall value ≥ t. -/
def elevenPointTerm (rcl prc : List ℚ) (t : ℚ) : ℚ :=
  maxOrZero (((rcl.zip prc).filter (fun rp => decide (t ≤ rp.1))).map Prod.snd)

/-- voc_ap with use_07_metric = True: thresholds np.arange(0., 1.1, 0.1),
i.e. k/10 for k = 0..10, accumulating p / 11. -/
def vocAp07 (rcl prc : List ℚ) : ℚ :=
  ((List.range 11).map (fun (k : ℕ) => elevenPointTerm rcl prc ((k : ℚ) / 10) / 11)).sum

/-- The precision-envelope loop of voc_ap: for i from size-1 down to 1,
mpre[i-1] = max(mpre[i-1], mpre[i]); the result is the list of suffix
maxima. -/
def suffixMax : List ℚ → List ℚ
  | [] => []
  | a :: rest =>
    match suffixMax rest with
    | [] => [a]
    | b :: tl => max a b :: b :: tl

/-- The Riemann sum of voc_ap: over the indices i where recall changes
(mrec[i+1] ≠ mrec[i]), sum (mrec[i+1] - mrec[i]) * mpre[i+1]. -/
def apArea : List ℚ → List ℚ → ℚ
  | a :: b :: l, _ :: p :: q => (if a ≠ b then (b - a) * p else 0) + apArea (b :: l) (p :: q)
  | _, _ => 0

/-- voc_ap(rec, prec, use_07_metric): VOC average precision from a recall
and a precision sequence. -/
def voc_ap (rcl prc : List ℚ) (use_07_metric : Bool) : ℚ :=
  if use_07_metric then vocAp07 rcl prc
  else apArea ((0 : ℚ) :: rcl ++ [1]) (suffixMax ((0 : ℚ) :: prc ++ [0]))

/-- The 11-point rule as the spec words it (refinement target for C2):
for threshold t, p is the maximum precision over the indices i with
recall[i] ≥ t, or 0 when no index qualifies. -/
def specMaxPrecAt (rcl prc : List ℚ) (t : ℚ) : ℚ :=
  maxOrZero (((List.range rcl.length).filter (fun i => decide (t ≤ rcl.getD i 0))).map
    (fun i => prc.getD i 0))

/-- The 11-point AP as the spec words it: the arithmetic mean of the 11
sampled max-precisions at thresholds 0.0, 0.1, ..., 1.0. -/
def specElevenPointAP (rcl prc : List ℚ) : ℚ :=
  (((List.range 11).map (fun (k : ℕ) => specMaxPrecAt rcl prc ((k : ℚ) / 10))).sum) / 11

/-- pred argument of eval_det_cls: img_id ↦ list of (bbox, score). -/
abbrev PredMap (β : Type) := List (Nat × List (β × ℚ))

/-- gt argument of eval_det_cls: img_id ↦ list of bbox. -/
abbrev GtMap (β : Type) := List (Nat × List β)

/-- One class_recs entry: bbox is the (copied, np.array(gt[img_id]))
ground-truth box sequence, det the parallel matched mask, initially all
False. -/
structure ClassRec (β : Type) where
  bbox : List β
  det : List Bool
deriving DecidableEq

/-- class_recs construction: one record per ground-truth image, then the
padding loop adding an empty record for every predicted image that has no
ground truth. -/
def buildClassRecs {β : Type} (pred : PredMap β) (gt : GtMap β) :
    List (Nat × ClassRec β) :=
  gt.map (fun g => (g.1, ⟨g.2, List.replicate g.2.length false⟩))
    ++ (pred.filter (fun p => (gt.lookup p.1).isNone)).map (fun p => (p.1, ⟨[], []⟩))

/-- npos: total ground-truth box count of the class. -/
def npos {β : Type} (gt : GtMap β) : ℕ := (gt.map (fun g => g.2.length)).sum

/-- The flattening loop of eval_det_cls: rows (image_id, confidence, box)
in map order. -/
def dets {β : Type} (pred : PredMap β) : List (Nat × ℚ × β) :=
  (pred.map (fun p => p.2.map (fun bs => (p.1, bs.2, bs.1)))).flatten

/-- Insertion of one detection row into a descending-by-score list. -/
def insertDet {β : Type} (d : Nat × ℚ × β) :
    List (Nat × ℚ × β) → List (Nat × ℚ × β)
  | [] => [d]
  | e :: rest => if e.2.1 < d.2.1 then d :: e :: rest else e :: insertDet d rest

/-- np.argsort(-confidence) applied to the three parallel sequences:
process detections by decreasing confidence. -/
def sortDets {β : Type} (ds : List (Nat × ℚ × β)) : List (Nat × ℚ × β) :=
  ds.foldr insertDet []

/-- The inner loop over the ground-truth boxes of one image, started at
index j with the running (ovmax, jmax) state; none is the initial
ovmax = -np.inf. The update fires on strict improvement iou > ovmax. -/
def scanFrom (vs : List ℚ) (j : ℕ) (best : Option (ℚ × ℕ)) : Option (ℚ × ℕ) :=
  match vs with
  | [] => best
  | v :: rest =>
    scanFrom rest (j + 1)
      (match best with
       | none => some (v, j)
       | some (m, jm) => if v > m then some (v, j) else some (m, jm))

/-- ovmax/jmax computation of one detection against BBGT. -/
def scanMax {β : Type} (iou : β → β → ℚ) (bb : β) (bbgt : List β) :
    Option (ℚ × ℕ) :=
  scanFrom (bbgt.map (iou bb)) 0 none

/-- R['det'][jmax] = 1 on the first record with the given image id (dict
keys are unique, so the first is the only one). -/
def setDet {β : Type} (recs : List (Nat × ClassRec β)) (imgId j : ℕ) :
    List (Nat × ClassRec β) :=
  match recs with
  | [] => []
  | r :: rest =>
    if r.1 = imgId then (r.1, ⟨r.2.bbox, r.2.det.set j true⟩) :: rest
    else r :: setDet rest imgId j

/-- Processing of one detection: the (tp[d], fp[d]) increments and the
updated class records. The none branch of the lookup is unreachable
(every detection image id is a key of class_recs by construction). -/
def markDet {β : Type} (iou : β → β → ℚ) (ovthresh : ℚ)
    (recs : List (Nat × ClassRec β)) (imgId : ℕ) (bb : β) :
    (ℚ × ℚ) × List (Nat × ClassRec β) :=
  match recs.lookup imgId with
  | none => ((0, 1), recs)
  | some R =>
    match scanMax iou bb R.bbox with
    | none => ((0, 1), recs)
    | some (ovmax, jmax) =>
      if ovmax > ovthresh then
        if R.det.getD jmax false = false then ((1, 0), setDet recs imgId jmax)
        else ((0, 1), recs)
      else ((0, 1), recs)

/-- The matching pass over the sorted detections: the per-detection
(tp, fp) rows and the final class records. -/
def matchPass {β : Type} (iou : β → β → ℚ) (ovthresh : ℚ)
    (recs : List (Nat × ClassRec β)) (ds : List (Nat × ℚ × β)) :
    List (ℚ × ℚ) × List (Nat × ClassRec β) :=
  match ds with
  | [] => ([], recs)
  | d :: rest =>
    let r1 := markDet iou ovthresh recs d.1 d.2.2
    let r2 := matchPass iou ovthresh r1.2 rest
    (r1.1 :: r2.1, r2.2)

/-- np.cumsum with a running total. -/
def cumsumFrom (s : ℚ) : List ℚ → List ℚ
  | [] => []
  | x :: rest => (s + x) :: cumsumFrom (s + x) rest

/-- np.cumsum. -/
def cumsum (l : List ℚ) : List ℚ := cumsumFrom 0 l

/-- eval_det_cls: per-class recall curve, precision curve and AP.
rec = cumsum(tp) / npos (the source divides by float(npos) with no guard;
in this exact model division by npos = 0 yields 0 instead of NaN/inf),
prec = cumsum(tp) / max(cumsum(tp) + cumsum(fp), eps). -/
def eval_det_cls {β : Type} (iou : β → β → ℚ) (pred : PredMap β) (gt : GtMap β)
    (ovthresh : ℚ) (use_07_metric : Bool) : List ℚ × List ℚ × ℚ :=
  let recs := buildClassRecs pred gt
  let n := npos gt
  let tfs := (matchPass iou ovthresh recs (sortDets (dets pred))).1
  let tpc := cumsum (tfs.map Prod.fst)
  let fpc := cumsum (tfs.map Prod.snd)
  let rcl := tpc.map (fun t => t / (n : ℚ))
  let prc := (tpc.zip fpc).map (fun c => c.1 / max (c.1 + c.2) eps)
  (rcl, prc, voc_ap rcl prc use_07_metric)

/-- eval_det: the multi-class driver loops over gt_all.keys() and
evaluates pred_all[classname]; on a class with ground truth but no
prediction entry the subscript raises KeyError, modelled as Except.error
carrying the class name. -/
def eval_det {β : Type} (iou : β → β → ℚ) (pred_all : List (String × PredMap β))
    (gt_all : List (String × GtMap β)) (ovthresh : ℚ) (use_07_metric : Bool) :
    Except String (List (String × (List ℚ × List ℚ × ℚ))) :=
  match gt_all with
  | [] => .ok []
  | cg :: rest =>
    match pred_all.lookup cg.1 with
    | none => .error cg.1
    | some p =>
      match eval_det iou pred_all rest ovthresh use_07_metric with
      | .error e => .error e
      | .ok rs => .ok ((cg.1, eval_det_cls iou p cg.2 ovthresh use_07_metric) :: rs)

/-- Store of the mutable matched-mask lists; the det field of a ClassRecH
is an index into the store. A fresh cell is allocated for every class
record on every evaluation call ([False] * len(bbox) and the padding []
are fresh Python lists). -/
abbrev DetStore := List (List Bool)

/-- class_recs entry in the store model: the copied ground-truth box list
plus the address of the freshly allocated matched-mask cell. -/
structure ClassRecH (β : Type) where
  bbox : List β
  det : ℕ

/-- Allocation loop of the store model: one fresh mask cell per entry,
appended at the end of the store. -/
def allocRecs {β : Type} (entries : List (Nat × List β)) (σ : DetStore) :
    List (Nat × ClassRecH β) × DetStore :=
  match entries with
  | [] => ([], σ)
  | e :: rest =>
    let t := allocRecs rest (σ ++ [List.replicate e.2.length false])
    ((e.1, ⟨e.2, σ.length⟩) :: t.1, t.2)

/-- buildClassRecs in the store model: the ground-truth entries, then the
padding entries (empty bbox, empty mask) for predicted images without
ground truth. -/
def buildRecsH {β : Type} (pred : PredMap β) (gt : GtMap β) (σ₀ : DetStore) :
    List (Nat × ClassRecH β) × DetStore :=
  let s1 := allocRecs gt σ₀
  let s2 := allocRecs ((pred.filter (fun p => (gt.lookup p.1).isNone)).map
    (fun p => (p.1, ([] : List β)))) s1.2
  (s1.1 ++ s2.1, s2.2)

/-- markDet in the store model: the matched mask is read and written
through the store. -/
def markDetH {β : Type} (iou : β → β → ℚ) (ovthresh : ℚ)
    (recs : List (Nat × ClassRecH β)) (σ : DetStore) (imgId : ℕ) (bb : β) :
    (ℚ × ℚ) × DetStore :=
  match recs.lookup imgId with
  | none => ((0, 1), σ)
  | some R =>
    match scanMax iou bb R.bbox with
    | none => ((0, 1), σ)
    | some (ovmax, jmax) =>
      if ovmax > ovthresh then
        if (σ.getD R.det []).getD jmax false = false then
          ((1, 0), σ.set R.det ((σ.getD R.det []).set jmax true))
        else ((0, 1), σ)
      else ((0, 1), σ)

/-- The matching pass in the store model: the record list is read-only,
only the store evolves. -/
def matchPassH {β : Type} (iou : β → β → ℚ) (ovthresh : ℚ)
    (recs : List (Nat × ClassRecH β)) (σ : DetStore) (ds : List (Nat × ℚ × β)) :
    List (ℚ × ℚ) × DetStore :=
  match ds with
  | [] => ([], σ)
  | d :: rest =>
    let r1 := markDetH iou ovthresh recs σ d.1 d.2.2
    let r2 := matchPassH iou ovthresh recs r1.2 rest
    (r1.1 :: r2.1, r2.2)

/-- eval_det_cls in the store model: takes the pre-existing store (where
all data of the caller, in particular the box lists of the pred and gt
arguments, conceptually lives), allocates the per-call mask cells on top
of it and returns the final store next to the computed values. -/
def eval_det_cls_h {β : Type} (iou : β → β → ℚ) (pred : PredMap β) (gt : GtMap β)
    (ovthresh : ℚ) (use_07_metric : Bool) (σ₀ : DetStore) :
    (List ℚ × List ℚ × ℚ) × DetStore :=
  let b := buildRecsH pred gt σ₀
  let n := npos gt
  let tfs := matchPassH iou ovthresh b.1 b.2 (sortDets (dets pred))
  let tpc := cumsum (tfs.1.map Prod.fst)
  let fpc := cumsum (tfs.1.map Prod.snd)
  let rcl := tpc.map (fun t => t / (n : ℚ))
  let prc := (tpc.zip fpc).map (fun c => c.1 / max (c.1 + c.2) eps)
  ((rcl, prc, voc_ap rcl prc use_07_metric), tfs.2)

/-- Agreement of a pure class record with a store-model record: same key,
same boxes, and the store cell holds the pure matched mask. -/
def RecAgree {β : Type} (σ : DetStore) (p : Nat × ClassRec β)
    (h : Nat × ClassRecH β) : Prop :=
  p.1 = h.1 ∧ p.2.bbox = h.2.bbox ∧ h.2.det < σ.length ∧ σ.getD h.2.det [] = p.2.det

/-- Simulation invariant between the pure and the store model: pointwise
agreement and pairwise-distinct mask addresses. -/
def StoreInv {β : Type} (σ : DetStore) (ps : List (Nat × ClassRec β))
    (hs : List (Nat × ClassRecH β)) : Prop :=
  List.Forall₂ (RecAgree σ) ps hs ∧
    (hs.map (fun h => h.2.det)).Pairwise (fun x y => x ≠ y)

/-- Concrete opaque-box IoU used for concrete evaluations: every pair of
boxes overlaps perfectly. -/
def iouOne : Unit → Unit → ℚ := fun _ _ => 1

lemma voc_ap_nil (m : Bool) : voc_ap [] [] m = 0 := by
  cases m
  · norm_num [voc_ap, apArea, suffixMax]
  · norm_num [voc_ap, vocAp07, elevenPointTerm, maxOrZero, List.range_succ]

lemma eval_det_cls_empty_pred {β : Type} (iou : β → β → ℚ) (gt : GtMap β)
    (th : ℚ) (m : Bool) : eval_det_cls iou [] gt th m = ([], [], 0) := by
  simp [eval_det_cls, dets, sortDets, matchPass, cumsum, cumsumFrom, voc_ap_nil]

lemma eval_det_missing_class {β : Type} (iou : β → β → ℚ)
    (pred_all : List (String × PredMap β)) (th : ℚ) (m : Bool) :
    ∀ (gt_all : List (String × GtMap β)) (c : String) (g : GtMap β),
      (c, g) ∈ gt_all → pred_all.lookup c = none →
      ∃ e, eval_det iou pred_all gt_all th m = .error e := by
  intro gt_all
  induction gt_all with
  | nil => intro c g h; simp at h
  | cons cg rest ih =>
    intro c g hmem hnone
    rcases List.mem_cons.1 hmem with heq | hrest
    · refine ⟨cg.1, ?_⟩
      have hc : cg.1 = c := by rw [← heq]
      simp [eval_det, hc, hnone]
    · cases hlk : pred_all.lookup cg.1 with
      | none => exact ⟨cg.1, by simp [eval_det, hlk]⟩
      | some p =>
        obtain ⟨e, he⟩ := ih c g hrest hnone
        exact ⟨e, by simp [eval_det, hlk, he]⟩

/-- C1 as stated is false on the code: with ground truth for class "chair"
and an empty prediction map, eval_det does not invoke the per-class
evaluator; the subscript pred_all[classname] fails (KeyError, modelled as
Except.error "chair"). -/
theorem claim_C1_counterexample :
    eval_det iouOne [] [("chair", [(0, [()])])] (1/4) false
      = Except.error "chair" := by rfl

/-- C1 (amended): for a class present in the ground-truth map but absent
from the prediction map, the driver fails with a key error instead of
invoking the per-class evaluator; the per-class evaluator itself does
tolerate an empty prediction map, returning empty recall and precision
sequences and AP = 0. -/
theorem claim_C1_amended {β : Type} (iou : β → β → ℚ) :
    (∀ (pred_all : List (String × PredMap β)) (gt_all : List (String × GtMap β))
        (th : ℚ) (m : Bool) (c : String) (g : GtMap β),
        (c, g) ∈ gt_all → pred_all.lookup c = none →
        ∃ e, eval_det iou pred_all gt_all th m = .error e) ∧
    (∀ (gt : GtMap β) (th : ℚ) (m : Bool),
        eval_det_cls iou [] gt th m = ([], [], 0)) :=
  ⟨fun pred_all gt_all th m => eval_det_missing_class iou pred_all th m gt_all,
   fun gt th m => eval_det_cls_empty_pred iou gt th m⟩

theorem claim_C1_amended_witness :
    (∃ e, eval_det iouOne [] [("chair", [(0, [()])])] (1/4) false = .error e) ∧
    eval_det_cls iouOne [] [(0, [()])] (1/4) false = ([], [], 0) :=
  ⟨(claim_C1_amended iouOne).1 [] [("chair", [(0, [()])])] (1/4) false "chair"
      [(0, [()])] (by simp) rfl,
   (claim_C1_amended iouOne).2 [(0, [()])] (1/4) false⟩

/-- C3: a detection whose best IoU against the ground-truth boxes of its
image does not strictly exceed the threshold — in particular one whose
best IoU equals the threshold exactly — is marked as a false positive
(fp increment 1, tp increment 0) and the class records are unchanged:
the comparison ovmax > ovthresh is strict. -/
theorem claim_C3 {β : Type} (iou : β → β → ℚ) (th : ℚ)
    (recs : List (Nat × ClassRec β)) (imgId : ℕ) (bb : β) (R : ClassRec β)
    (m : ℚ) (j : ℕ) (h1 : recs.lookup imgId = some R)
    (h2 : scanMax iou bb R.bbox = some (m, j)) (h3 : m ≤ th) :
    markDet iou th recs imgId bb = ((0, 1), recs) := by
  simp only [markDet, h1, h2]
  simp [not_lt.2 h3]

theorem claim_C3_witness :
    markDet (fun (_ _ : Unit) => (1 : ℚ)/2) (1/2) [(0, ⟨[()], [false]⟩)] 0 ()
      = ((0, 1), [(0, ⟨[()], [false]⟩)]) :=
  claim_C3 (fun _ _ => (1 : ℚ)/2) (1/2) [(0, ⟨[()], [false]⟩)] 0 ()
    ⟨[()], [false]⟩ (1/2) 0 rfl rfl le_rfl

/-- C4: Scenario B — one image, one ground-truth box, two predictions with
scores 0.9 and 0.5 both at IoU 1 against the box, threshold 0.25: the
higher-confidence detection is a true positive and claims the box's
matched flag, the lower-confidence one is a false positive, and the
evaluator returns recall [1, 1] and precision [1, 1/2]. -/
theorem claim_C4 :
    (eval_det_cls iouOne [(0, [((), 9/10), ((), 1/2)])] [(0, [()])] (1/4) false).1
        = [1, 1] ∧
    (eval_det_cls iouOne [(0, [((), 9/10), ((), 1/2)])] [(0, [()])] (1/4) false).2.1
        = [1, 1/2] ∧
    (matchPass iouOne (1/4) (buildClassRecs [(0, [((), 9/10), ((), 1/2)])] [(0, [()])])
        (sortDets (dets [(0, [((), 9/10), ((), 1/2)])]))).1 = [(1, 0), (0, 1)] ∧
    (matchPass iouOne (1/4) (buildClassRecs [(0, [((), 9/10), ((), 1/2)])] [(0, [()])])
        (sortDets (dets [(0, [((), 9/10), ((), 1/2)])]))).2 = [(0, ⟨[()], [true]⟩)] := by
  refine ⟨?_, ?_, ?_, ?_⟩ <;>
    norm_num [eval_det_cls, dets, sortDets, insertDet, buildClassRecs, matchPass, markDet,
      scanMax, scanFrom, setDet, cumsum, cumsumFrom, eps, npos, iouOne]

lemma scanFrom_some_spec :
    ∀ (vs : List ℚ) (j : ℕ) (m₀ : ℚ) (j₀ : ℕ),
      ∃ m jm, scanFrom vs j (some (m₀, j₀)) = some (m, jm) ∧
        ((jm = j₀ ∧ m = m₀ ∧ ∀ i, i < vs.length → vs.getD i 0 ≤ m₀) ∨
         (∃ i, i < vs.length ∧ jm = j + i ∧ m = vs.getD i 0 ∧ m₀ < m ∧
            (∀ k, k < vs.length → vs.getD k 0 ≤ m) ∧
            (∀ k, k < i → vs.getD k 0 < m))) := by
  intro vs
  induction vs with
  | nil =>
    intro j m₀ j₀
    exact ⟨m₀, j₀, rfl, Or.inl ⟨rfl, rfl, by simp⟩⟩
  | cons v rest ih =>
    intro j m₀ j₀
    by_cases hv : v > m₀
    · obtain ⟨m, jm, heq, hc⟩ := ih (j + 1) v j
      refine ⟨m, jm, ?_, ?_⟩
      · simpa [scanFrom, hv] using heq
      · rcases hc with ⟨hjm, hm, hall⟩ | ⟨i, hi, hjm, hm, hlt, hall, hpre⟩
        · refine Or.inr ⟨0, by simp, by omega, by simp [hm], by simpa [hm] using hv, ?_, ?_⟩
          · intro k hk
            cases k with
            | zero => simp [hm]
            | succ k' => simpa [hm] using hall k' (by simpa using hk)
          · intro k hk; omega
        · refine Or.inr ⟨i + 1, by simpa using hi, by omega, by simpa using hm,
            lt_trans hv hlt, ?_, ?_⟩
          · intro k hk
            cases k with
            | zero => simpa using le_of_lt hlt
            | succ k' => simpa using hall k' (by simpa using hk)
          · intro k hk
            cases k with
            | zero => simpa using hlt
            | succ k' => simpa using hpre k' (by omega)
    · obtain ⟨m, jm, heq, hc⟩ := ih (j + 1) m₀ j₀
      refine ⟨m, jm, ?_, ?_⟩
      · simpa [scanFrom, hv] using heq
      · rcases hc with ⟨hjm, hm, hall⟩ | ⟨i, hi, hjm, hm, hlt, hall, hpre⟩
        · refine Or.inl ⟨hjm, hm, ?_⟩
          intro k hk
          cases k with
          | zero => simpa using not_lt.1 hv
          | succ k' => simpa using hall k' (by simpa using hk)
        · refine Or.inr ⟨i + 1, by simpa using hi, by omega, by simpa using hm, hlt, ?_, ?_⟩
          · intro k hk
            cases k with
            | zero => simpa using le_of_lt (lt_of_le_of_lt (not_lt.1 hv) hlt)
            | succ k' => simpa using hall k' (by simpa using hk)
          · intro k hk
            cases k with
            | zero => simpa using lt_of_le_of_lt (not_lt.1 hv) hlt
            | succ k' => simpa using hpre k' (by omega)

/-- C5: on a non-empty ground-truth box sequence the inner scan returns
the maximal IoU value together with the first index attaining it: jmax is
in range, its IoU equals ovmax, every IoU is ≤ ovmax, and every index
before jmax has IoU strictly below ovmax (the strict > update makes the
earliest of tied maxima win). -/
theorem claim_C5 {β : Type} (iou : β → β → ℚ) (bb : β) (bbgt : List β)
    (h : bbgt ≠ []) :
    ∃ m jm, scanMax iou bb bbgt = some (m, jm) ∧ jm < bbgt.length ∧
      (bbgt.map (iou bb)).getD jm 0 = m ∧
      (∀ k, k < bbgt.length → (bbgt.map (iou bb)).getD k 0 ≤ m) ∧
      (∀ k, k < jm → (bbgt.map (iou bb)).getD k 0 < m) := by
  cases bbgt with
  | nil => exact absurd rfl h
  | cons g gs =>
    obtain ⟨m, jm, heq, hc⟩ := scanFrom_some_spec (gs.map (iou bb)) 1 (iou bb g) 0
    refine ⟨m, jm, ?_, ?_, ?_, ?_, ?_⟩
    · simpa [scanMax, scanFrom] using heq
    · rcases hc with ⟨hjm, _, _⟩ | ⟨i, hi, hjm, _, _, _, _⟩
      · simp [hjm]
      · simp only [List.length_cons]
        simp only [List.length_map] at hi
        omega
    · rcases hc with ⟨hjm, hm, _⟩ | ⟨i, hi, hjm, hm, _, _, _⟩
      · simp [hjm, hm]
      · have : jm = i + 1 := by omega
        subst this
        simpa using hm.symm
    · intro k hk
      rcases hc with ⟨_, hm, hall⟩ | ⟨i, hi, hjm, hm, hlt, hall, _⟩
      · cases k with
        | zero => simp [hm]
        | succ k' =>
          have := hall k' (by simp only [List.length_map]; simp only [List.length_cons] at hk; omega)
          simpa [hm] using this
      · cases k with
        | zero => simpa using le_of_lt hlt
        | succ k' =>
          have := hall k' (by simp only [List.length_map]; simp only [List.length_cons] at hk; omega)
          simpa using this
    · intro k hk
      rcases hc with ⟨hjm, _, _⟩ | ⟨i, hi, hjm, hm, hlt, _, hpre⟩
      · omega
      · cases k with
        | zero => simpa using hlt
        | succ k' =>
          have := hpre k' (by omega)
          simpa using this

theorem claim_C5_witness :
    ∃ m jm, scanMax iouOne () [(), ()] = some (m, jm) ∧ jm < ([(), ()] : List Unit).length ∧
      (([(), ()] : List Unit).map (iouOne ())).getD jm 0 = m ∧
      (∀ k, k < ([(), ()] : List Unit).length →
        (([(), ()] : List Unit).map (iouOne ())).getD k 0 ≤ m) ∧
      (∀ k, k < jm → (([(), ()] : List Unit).map (iouOne ())).getD k 0 < m) :=
  claim_C5 iouOne () [(), ()] (by simp)

lemma markDet_row_sum {β : Type} (iou : β → β → ℚ) (th : ℚ)
    (recs : List (Nat × ClassRec β)) (imgId : ℕ) (bb : β) :
    (markDet iou th recs imgId bb).1.1 + (markDet iou th recs imgId bb).1.2 = 1 := by
  unfold markDet
  split
  · norm_num
  · split
    · norm_num
    · split_ifs <;> norm_num

lemma matchPass_rows {β : Type} (iou : β → β → ℚ) (th : ℚ) :
    ∀ (ds : List (Nat × ℚ × β)) (recs : List (Nat × ClassRec β)),
      ∀ p ∈ (matchPass iou th recs ds).1, p.1 + p.2 = 1 := by
  intro ds
  induction ds with
  | nil => intro recs p hp; simp [matchPass] at hp
  | cons d rest ih =>
    intro recs p hp
    simp only [matchPass] at hp
    rcases List.mem_cons.1 hp with heq | hmem
    · rw [heq]; exact markDet_row_sum iou th recs d.1 d.2.2
    · exact ih _ p hmem

lemma cumsum_pair_getD :
    ∀ (l : List (ℚ × ℚ)) (s t : ℚ) (i : ℕ), (∀ p ∈ l, p.1 + p.2 = 1) → i < l.length →
      (cumsumFrom s (l.map Prod.fst)).getD i 0 + (cumsumFrom t (l.map Prod.snd)).getD i 0
        = s + t + i + 1 := by
  intro l
  induction l with
  | nil => intro s t i h hi; simp at hi
  | cons p rest ih =>
    intro s t i h hi
    cases i with
    | zero =>
      have hp := h p (List.mem_cons_self p rest)
      simp only [List.map_cons, cumsumFrom, List.getD_cons_zero, Nat.cast_zero]
      linarith
    | succ i' =>
      simp only [List.map_cons, cumsumFrom, List.getD_cons_succ]
      have hrec := ih (s + p.1) (t + p.2) i'
        (fun q hq => h q (List.mem_cons_of_mem _ hq)) (by simpa using hi)
      have hp := h p (List.mem_cons_self p rest)
      push_cast
      push_cast at hrec
      linarith

/-- C8: every processed detection is exactly one of tp and fp, so at every
index i the cumulative sums satisfy cumTP[i] + cumFP[i] = i + 1 ≥ 1, and
the epsilon guard max(cumTP + cumFP, eps) in the precision denominator is
the identity there (the division is never by zero). -/
theorem claim_C8 {β : Type} (iou : β → β → ℚ) (th : ℚ)
    (recs : List (Nat × ClassRec β)) (ds : List (Nat × ℚ × β)) (i : ℕ)
    (hi : i < (matchPass iou th recs ds).1.length) :
    (cumsum ((matchPass iou th recs ds).1.map Prod.fst)).getD i 0
      + (cumsum ((matchPass iou th recs ds).1.map Prod.snd)).getD i 0 = i + 1 ∧
    max ((cumsum ((matchPass iou th recs ds).1.map Prod.fst)).getD i 0
      + (cumsum ((matchPass iou th recs ds).1.map Prod.snd)).getD i 0) eps
      = (cumsum ((matchPass iou th recs ds).1.map Prod.fst)).getD i 0
      + (cumsum ((matchPass iou th recs ds).1.map Prod.snd)).getD i 0 := by
  have h1 := cumsum_pair_getD ((matchPass iou th recs ds).1) 0 0 i
    (matchPass_rows iou th ds recs) hi
  have h2 : (cumsum ((matchPass iou th recs ds).1.map Prod.fst)).getD i 0
      + (cumsum ((matchPass iou th recs ds).1.map Prod.snd)).getD i 0 = i + 1 := by
    simpa [cumsum] using h1
  refine ⟨h2, ?_⟩
  rw [h2]
  apply max_eq_left
  have hc : (0 : ℚ) ≤ (i : ℚ) := by positivity
  norm_num [eps]
  linarith

theorem claim_C8_witness :
    (cumsum ((matchPass iouOne (1/4) [] [(0, 1/2, ())]).1.map Prod.fst)).getD 0 0
      + (cumsum ((matchPass iouOne (1/4) [] [(0, 1/2, ())]).1.map Prod.snd)).getD 0 0
      = (0 : ℕ) + 1 ∧
    max ((cumsum ((matchPass iouOne (1/4) [] [(0, 1/2, ())]).1.map Prod.fst)).getD 0 0
      + (cumsum ((matchPass iouOne (1/4) [] [(0, 1/2, ())]).1.map Prod.snd)).getD 0 0) eps
      = (cumsum ((matchPass iouOne (1/4) [] [(0, 1/2, ())]).1.map Prod.fst)).getD 0 0
      + (cumsum ((matchPass iouOne (1/4) [] [(0, 1/2, ())]).1.map Prod.snd)).getD 0 0 :=
  claim_C8 iouOne (1/4) [] [(0, 1/2, ())] 0 (by norm_num [matchPass, markDet])

lemma selected_prec_eq :
    ∀ (rcl : List ℚ) (prc : List ℚ) (t : ℚ), rcl.length = prc.length →
      ((rcl.zip prc).filter (fun rp => decide (t ≤ rp.1))).map Prod.snd
        = ((List.range rcl.length).filter (fun i => decide (t ≤ rcl.getD i 0))).map
            (fun i => prc.getD i 0) := by
  intro rcl
  induction rcl with
  | nil => intro prc t h; simp
  | cons r rest ih =>
    intro prc t h
    cases prc with
    | nil => simp at h
    | cons p ps =>
      have hlen : rest.length = ps.length := by simpa using h
      have ihr := ih ps t hlen
      by_cases hr : t ≤ r <;>
        simp [List.zip_cons_cons, List.length_cons, List.range_succ_eq_map,
          List.filter_cons, List.getD_cons_zero, hr, ihr,
          List.filter_map, List.map_map, Function.comp_def, Nat.succ_eq_add_one,
          List.getElem?_cons_succ, List.getD_cons_succ]

lemma list_sum_div (l : List ℚ) (c : ℚ) :
    (l.map (fun x => x / c)).sum = l.sum / c := by
  induction l with
  | nil => simp
  | cons x rest ih => simp [ih, add_div]

/-- C2: in 11-point mode voc_ap samples exactly the 11 thresholds k/10 for
k = 0..10; each sample is the maximum precision over the indices whose
recall is ≥ the threshold (0 when none), and the result is the arithmetic
mean of the 11 samples — voc_ap agrees with the index-based formula of
the spec. -/
theorem claim_C2 (rcl prc : List ℚ) (h : rcl.length = prc.length) :
    voc_ap rcl prc true = specElevenPointAP rcl prc := by
  have hterm : ∀ t, elevenPointTerm rcl prc t = specMaxPrecAt rcl prc t := by
    intro t
    unfold elevenPointTerm specMaxPrecAt
    rw [selected_prec_eq rcl prc t h]
  simp only [voc_ap, if_true]
  unfold vocAp07 specElevenPointAP
  simp only [hterm]
  rw [show (fun (k : ℕ) => specMaxPrecAt rcl prc ((k : ℚ)/10) / 11)
        = (fun x => x / 11) ∘ (fun (k : ℕ) => specMaxPrecAt rcl prc ((k : ℚ)/10)) from rfl,
    ← List.map_map, list_sum_div]

theorem claim_C2_witness :
    ([(1 : ℚ)/2].length = [(1 : ℚ)].length) ∧
      voc_ap [(1 : ℚ)/2] [(1 : ℚ)] true = specElevenPointAP [(1 : ℚ)/2] [(1 : ℚ)] :=
  ⟨rfl, claim_C2 [(1 : ℚ)/2] [(1 : ℚ)] rfl⟩

lemma foldl_max_bounds :
    ∀ (ps : List ℚ) (a : ℚ), 0 ≤ a → a ≤ 1 → (∀ x ∈ ps, 0 ≤ x ∧ x ≤ 1) →
      0 ≤ ps.foldl max a ∧ ps.foldl max a ≤ 1 := by
  intro ps
  induction ps with
  | nil => intro a h0 h1 _; exact ⟨h0, h1⟩
  | cons x rest ih =>
    intro a h0 h1 hmem
    have hx := hmem x (List.mem_cons_self x rest)
    simp only [List.foldl_cons]
    exact ih (max a x) (le_trans h0 (le_max_left a x)) (max_le h1 hx.2)
      (fun y hy => hmem y (List.mem_cons_of_mem _ hy))

lemma maxOrZero_bounds (l : List ℚ) (h : ∀ x ∈ l, 0 ≤ x ∧ x ≤ 1) :
    0 ≤ maxOrZero l ∧ maxOrZero l ≤ 1 := by
  cases l with
  | nil => simp [maxOrZero]
  | cons p ps =>
    have hp := h p (List.mem_cons_self p ps)
    exact foldl_max_bounds ps p hp.1 hp.2 (fun y hy => h y (List.mem_cons_of_mem _ hy))

lemma elevenPointTerm_bounds (rcl prc : List ℚ) (t : ℚ)
    (hp : ∀ x ∈ prc, 0 ≤ x ∧ x ≤ 1) :
    0 ≤ elevenPointTerm rcl prc t ∧ elevenPointTerm rcl prc t ≤ 1 := by
  apply maxOrZero_bounds
  intro x hx
  obtain ⟨rp, hrp, hsnd⟩ := List.mem_map.1 hx
  have hzip := List.of_mem_zip (List.mem_of_mem_filter hrp)
  rw [← hsnd]
  exact hp rp.2 hzip.2

lemma vocAp07_bounds (rcl prc : List ℚ) (hp : ∀ x ∈ prc, 0 ≤ x ∧ x ≤ 1) :
    0 ≤ vocAp07 rcl prc ∧ vocAp07 rcl prc ≤ 1 := by
  constructor
  · apply List.sum_nonneg
    intro x hx
    obtain ⟨k, _, hk⟩ := List.mem_map.1 hx
    rw [← hk]
    have := (elevenPointTerm_bounds rcl prc ((k : ℚ)/10) hp).1
    positivity
  · have hb : ∀ x ∈ (List.range 11).map
        (fun (k : ℕ) => elevenPointTerm rcl prc ((k : ℚ) / 10) / 11), x ≤ 1/11 := by
      intro x hx
      obtain ⟨k, _, hk⟩ := List.mem_map.1 hx
      rw [← hk]
      have := (elevenPointTerm_bounds rcl prc ((k : ℚ)/10) hp).2
      linarith
    have := List.sum_le_card_nsmul _ _ hb
    simp only [List.length_map, List.length_range, nsmul_eq_mul] at this
    unfold vocAp07
    linarith

lemma suffixMax_mem :
    ∀ (l : List ℚ), (∀ x ∈ l, 0 ≤ x ∧ x ≤ 1) → ∀ y ∈ suffixMax l, 0 ≤ y ∧ y ≤ 1 := by
  intro l
  induction l with
  | nil => intro _ y hy; simp [suffixMax] at hy
  | cons a rest ih =>
    intro h y hy
    have ha := h a (List.mem_cons_self a rest)
    have hrest := fun x hx => h x (List.mem_cons_of_mem _ hx)
    simp only [suffixMax] at hy
    rcases hsm : suffixMax rest with _ | ⟨b, tl⟩
    · rw [hsm] at hy
      simp at hy
      exact hy ▸ ha
    · rw [hsm] at hy
      have hb := ih hrest b (by rw [hsm]; exact List.mem_cons_self b tl)
      rcases List.mem_cons.1 hy with hcase | hcase
      · subst hcase
        exact ⟨le_trans ha.1 (le_max_left a b), max_le ha.2 hb.2⟩
      · exact ih hrest y (by rw [hsm]; exact hcase)

lemma chain_head_le_getLastD :
    ∀ (l : List ℚ) (a d : ℚ), List.Chain' (· ≤ ·) (a :: l) → a ≤ (a :: l).getLastD d := by
  intro l
  induction l with
  | nil => intro a d _; simp
  | cons b rest ih =>
    intro a d hch
    have hab : a ≤ b := (List.chain'_cons.1 hch).1
    have := ih b a (List.chain'_cons.1 hch).2
    rw [List.getLastD_cons]
    calc a ≤ b := hab
      _ ≤ (b :: rest).getLastD a := ih b a (List.chain'_cons.1 hch).2

theorem apArea_nonneg :
    ∀ (l q : List ℚ), List.Chain' (· ≤ ·) l → (∀ x ∈ q, 0 ≤ x) → 0 ≤ apArea l q
  | [], q, _, _ => by simp [apArea]
  | [a], q, _, _ => by simp [apArea]
  | a :: b :: l', [], _, _ => by simp [apArea]
  | a :: b :: l', [c], _, _ => by simp [apArea]
  | a :: b :: l', c :: p :: q', hl, hq => by
    have hrec := apArea_nonneg (b :: l') (p :: q') (List.chain'_cons.1 hl).2
      (fun x hx => hq x (List.mem_cons_of_mem _ hx))
    have hab : a ≤ b := (List.chain'_cons.1 hl).1
    have hp : 0 ≤ p := hq p (List.mem_cons_of_mem _ (List.mem_cons_self _ _))
    simp only [apArea]
    by_cases hne : a = b
    · simp [hne, hrec]
    · have : 0 ≤ (b - a) * p := mul_nonneg (by linarith) hp
      simp only [Ne, hne, not_false_iff, if_true]
      linarith

theorem apArea_le :
    ∀ (l q : List ℚ) (a : ℚ), List.Chain' (· ≤ ·) (a :: l) → (∀ x ∈ q, x ≤ 1) →
      apArea (a :: l) q ≤ (a :: l).getLastD 0 - a
  | [], q, a, _, _ => by simp [apArea]
  | b :: l', [], a, hch, _ => by
    simp only [apArea]
    have := chain_head_le_getLastD (b :: l') a 0 hch
    linarith
  | b :: l', [c], a, hch, _ => by
    simp only [apArea]
    have := chain_head_le_getLastD (b :: l') a 0 hch
    linarith
  | b :: l', c :: p :: q', a, hch, hq => by
    have hrec := apArea_le l' (p :: q') b (List.chain'_cons.1 hch).2
      (fun x hx => hq x (List.mem_cons_of_mem _ hx))
    have hab : a ≤ b := (List.chain'_cons.1 hch).1
    have hp : p ≤ 1 := hq p (List.mem_cons_of_mem _ (List.mem_cons_self _ _))
    simp only [apArea]
    rw [List.getLastD_cons 0 a (b :: l'), List.getLastD_cons a b l']
    rw [List.getLastD_cons 0 b l'] at hrec
    by_cases hne : a = b
    · simp only [Ne, hne, not_true, if_false]
      subst hne
      linarith
    · simp only [Ne, hne, not_false_iff, if_true]
      by_cases hpn : 0 ≤ p
      · have h1 : (b - a) * p ≤ (b - a) * 1 :=
          mul_le_mul_of_nonneg_left hp (by linarith)
        linarith
      · have h1 : (b - a) * p ≤ 0 := mul_nonpos_of_nonneg_of_nonpos (by linarith) (by linarith)
        linarith

lemma chain_sentinel (rcl : List ℚ) (hchain : List.Chain' (· ≤ ·) rcl)
    (hr : ∀ x ∈ rcl, 0 ≤ x ∧ x ≤ 1) :
    List.Chain' (· ≤ ·) ((0 : ℚ) :: rcl ++ [1]) := by
  rw [show (0 : ℚ) :: rcl ++ [1] = ((0 : ℚ) :: rcl) ++ [1] from rfl, List.chain'_append]
  refine ⟨?_, List.chain'_singleton 1, ?_⟩
  · rw [List.chain'_cons']
    exact ⟨fun y hy => (hr y (List.mem_of_mem_head? hy)).1, hchain⟩
  · intro x hx y hy
    simp only [List.head?_cons, Option.mem_def, Option.some.injEq] at hy
    subst hy
    have := List.mem_of_mem_getLast? hx
    rcases List.mem_cons.1 this with h0 | hmem
    · rw [h0]; norm_num
    · exact (hr x hmem).2

/-- C7: for equal-length inputs with recall values in [0,1] and
non-decreasing and precision values in [0,1], voc_ap returns a value in
[0,1] in both the 11-point mode and the exact-integral mode. -/
theorem claim_C7 (rcl prc : List ℚ) (m : Bool) (hlen : rcl.length = prc.length)
    (hchain : List.Chain' (· ≤ ·) rcl)
    (hr : ∀ x ∈ rcl, 0 ≤ x ∧ x ≤ 1) (hp : ∀ x ∈ prc, 0 ≤ x ∧ x ≤ 1) :
    0 ≤ voc_ap rcl prc m ∧ voc_ap rcl prc m ≤ 1 := by
  cases m with
  | true => simpa [voc_ap] using vocAp07_bounds rcl prc hp
  | false =>
    have hpre : ∀ x ∈ (0 : ℚ) :: prc ++ [0], 0 ≤ x ∧ x ≤ 1 := by
      intro x hx
      rcases List.mem_cons.1 hx with h0 | hmem
      · rw [h0]; norm_num
      · rcases List.mem_append.1 hmem with hq | hq
        · exact hp x hq
        · simp at hq; rw [hq]; norm_num
    have henv := suffixMax_mem ((0 : ℚ) :: prc ++ [0]) hpre
    have hch := chain_sentinel rcl hchain hr
    simp only [List.cons_append] at hch henv
    constructor
    · simp only [voc_ap, Bool.false_eq_true, if_false, List.cons_append]
      exact apArea_nonneg _ _ hch (fun x hx => (henv x hx).1)
    · simp only [voc_ap, Bool.false_eq_true, if_false, List.cons_append]
      have hb := apArea_le (rcl ++ [1]) (suffixMax ((0 : ℚ) :: (prc ++ [0]))) 0
        hch (fun x hx => (henv x hx).2)
      have hlast : ((0 : ℚ) :: (rcl ++ [1])).getLastD 0 = 1 := by
        rw [List.getLastD_cons, List.getLastD_concat]
      rw [hlast] at hb
      linarith

theorem claim_C7_witness :
    0 ≤ voc_ap [(1 : ℚ)/2] [(1 : ℚ)] false ∧ voc_ap [(1 : ℚ)/2] [(1 : ℚ)] false ≤ 1 :=
  claim_C7 [(1 : ℚ)/2] [(1 : ℚ)] false rfl (List.chain'_singleton _)
    (by norm_num) (by norm_num)

/-- C6: voc_ap on empty recall and precision sequences in exact-integral
mode returns 0: the sentinels alone contribute zero area. -/
theorem claim_C6 : voc_ap [] [] false = 0 := by
  norm_num [voc_ap, apArea, suffixMax]

lemma forall2_append_rel {α γ : Type} {R : α → γ → Prop} :
    ∀ {l1 : List α} {l2 : List γ} {l3 : List α} {l4 : List γ},
      List.Forall₂ R l1 l2 → List.Forall₂ R l3 l4 → List.Forall₂ R (l1 ++ l3) (l2 ++ l4) := by
  intro l1 l2 l3 l4 h1 h2
  induction h1 with
  | nil => simpa using h2
  | cons hr _ ih => simpa using List.forall₂_cons.2 ⟨hr, by simpa using ih⟩

lemma forall2_mem_imp {α γ : Type} {R S : α → γ → Prop} :
    ∀ {l1 : List α} {l2 : List γ}, List.Forall₂ R l1 l2 →
      (∀ a b, a ∈ l1 → b ∈ l2 → R a b → S a b) → List.Forall₂ S l1 l2 := by
  intro l1 l2 h
  induction h with
  | nil => intro _; exact List.Forall₂.nil
  | cons hr hrest ih =>
    intro hmem
    exact List.forall₂_cons.2
      ⟨hmem _ _ (List.mem_cons_self _ _) (List.mem_cons_self _ _) hr,
       ih (fun a b ha hb hr2 =>
        hmem a b (List.mem_cons_of_mem _ ha) (List.mem_cons_of_mem _ hb) hr2)⟩

lemma lookup_mem {γ : Type} :
    ∀ (l : List (Nat × γ)) (a : ℕ) (v : γ), l.lookup a = some v → ∃ k, (k, v) ∈ l := by
  intro l
  induction l with
  | nil => intro a v h; simp [List.lookup] at h
  | cons e rest ih =>
    intro a v h
    obtain ⟨k, b⟩ := e
    rw [List.lookup_cons] at h
    by_cases hk : a = k
    · simp only [hk, beq_self_eq_true] at h
      obtain rfl : b = v := by simpa using h
      exact ⟨k, List.mem_cons_self _ _⟩
    · simp only [beq_eq_false_iff_ne.2 hk] at h
      obtain ⟨k2, hmem⟩ := ih a v h
      exact ⟨k2, List.mem_cons_of_mem _ hmem⟩

lemma getD_set_ne (σ : DetStore) (r q : ℕ) (v : List Bool) (hne : r ≠ q) :
    (σ.set r v).getD q [] = σ.getD q [] := by
  rw [List.getD_eq_getElem?_getD, List.getD_eq_getElem?_getD, List.getElem?_set_ne hne]

lemma getD_set_self (σ : DetStore) (r : ℕ) (v : List Bool) (hr : r < σ.length) :
    (σ.set r v).getD r [] = v := by
  rw [List.getD_eq_getElem?_getD, List.getElem?_set_self hr]
  rfl

lemma allocRecs_store {β : Type} :
    ∀ (es : List (Nat × List β)) (σ : DetStore),
      (allocRecs es σ).2 = σ ++ es.map (fun e => List.replicate e.2.length false) := by
  intro es
  induction es with
  | nil => intro σ; simp [allocRecs]
  | cons e rest ih => intro σ; simp [allocRecs, ih]

lemma allocRecs_refs {β : Type} :
    ∀ (es : List (Nat × List β)) (σ : DetStore),
      ((allocRecs es σ).1).map (fun h => h.2.det) = List.range' σ.length es.length := by
  intro es
  induction es with
  | nil => intro σ; simp [allocRecs]
  | cons e rest ih =>
    intro σ
    simp [allocRecs, ih, List.range'_succ]

lemma allocRecs_agree {β : Type} :
    ∀ (es : List (Nat × List β)) (σ : DetStore),
      List.Forall₂ (RecAgree (allocRecs es σ).2)
        (es.map (fun e => (e.1, (⟨e.2, List.replicate e.2.length false⟩ : ClassRec β))))
        ((allocRecs es σ).1) := by
  intro es
  induction es with
  | nil => intro σ; simp [allocRecs]
  | cons e rest ih =>
    intro σ
    simp only [allocRecs, List.map_cons]
    refine List.forall₂_cons.2 ⟨?_, ih (σ ++ [List.replicate e.2.length false])⟩
    refine ⟨rfl, rfl, ?_, ?_⟩
    · rw [allocRecs_store]
      simp only [List.length_append, List.length_cons]
      omega
    · rw [allocRecs_store, List.getD_eq_getElem?_getD, List.getElem?_append]
      simp

lemma recAgree_append {β : Type} {σ Δ : DetStore} {p : Nat × ClassRec β}
    {h : Nat × ClassRecH β} (ha : RecAgree σ p h) : RecAgree (σ ++ Δ) p h := by
  obtain ⟨h1, h2, h3, h4⟩ := ha
  refine ⟨h1, h2, by simp only [List.length_append]; omega, ?_⟩
  have heq : (σ ++ Δ)[h.2.det]? = σ[h.2.det]? := by
    rw [List.getElem?_append]
    simp [h3]
  rw [List.getD_eq_getElem?_getD, heq, ← List.getD_eq_getElem?_getD]
  exact h4

lemma build_inv {β : Type} (pred : PredMap β) (gt : GtMap β) (σ₀ : DetStore) :
    StoreInv (buildRecsH pred gt σ₀).2 (buildClassRecs pred gt)
      (buildRecsH pred gt σ₀).1 := by
  constructor
  · unfold buildClassRecs buildRecsH
    simp only []
    refine forall2_append_rel ?_ ?_
    · have h1 := allocRecs_agree gt σ₀
      have hst := allocRecs_store
        ((pred.filter (fun p => (gt.lookup p.1).isNone)).map
          (fun p => (p.1, ([] : List β)))) (allocRecs gt σ₀).2
      rw [hst]
      exact forall2_mem_imp h1 (fun a b _ _ hab => recAgree_append hab)
    · have h2 := allocRecs_agree
        ((pred.filter (fun p => (gt.lookup p.1).isNone)).map
          (fun p => (p.1, ([] : List β)))) (allocRecs gt σ₀).2
      simpa [List.map_map, Function.comp_def] using h2
  · unfold buildRecsH
    simp only [List.map_append]
    rw [allocRecs_refs, allocRecs_refs]
    have hlen : ((allocRecs gt σ₀).2).length = σ₀.length + gt.length := by
      rw [allocRecs_store]
      simp
    rw [hlen]
    have hr := List.range'_append σ₀.length gt.length
      ((pred.filter (fun p => (gt.lookup p.1).isNone)).map
        (fun p => (p.1, ([] : List β)))).length 1
    simp only [one_mul] at hr
    rw [hr]
    exact List.nodup_range' _ _

lemma markDet_cons_ne {β : Type} (iou : β → β → ℚ) (th : ℚ) (pk : ℕ)
    (pR : ClassRec β) (ps : List (Nat × ClassRec β)) (imgId : ℕ) (bb : β)
    (hne : pk ≠ imgId) :
    markDet iou th ((pk, pR) :: ps) imgId bb
      = ((markDet iou th ps imgId bb).1, (pk, pR) :: (markDet iou th ps imgId bb).2) := by
  unfold markDet
  rw [List.lookup_cons]
  simp only [beq_eq_false_iff_ne.2 (fun hh : imgId = pk => hne hh.symm)]
  cases hl : List.lookup imgId ps with
  | none => simp
  | some R2 =>
    cases hsc : scanMax iou bb R2.bbox with
    | none => simp [hsc]
    | some mj =>
      obtain ⟨m, j⟩ := mj
      by_cases hgt : th < m
      · by_cases hdet : R2.det.getD j false = false
        · simp only [List.getD_eq_getElem?_getD] at hdet
          simp [hsc, hgt, hdet, setDet, hne]
        · simp only [List.getD_eq_getElem?_getD] at hdet
          simp [hsc, hgt, hdet, setDet, hne]
      · simp [hsc, hgt]

lemma markDetH_cons_ne {β : Type} (iou : β → β → ℚ) (th : ℚ) (hk : ℕ)
    (hR : ClassRecH β) (hs : List (Nat × ClassRecH β)) (σ : DetStore)
    (imgId : ℕ) (bb : β) (hne : hk ≠ imgId) :
    markDetH iou th ((hk, hR) :: hs) σ imgId bb = markDetH iou th hs σ imgId bb := by
  unfold markDetH
  rw [List.lookup_cons]
  simp only [beq_eq_false_iff_ne.2 (fun hh : imgId = hk => hne hh.symm)]

lemma markDetH_store {β : Type} (iou : β → β → ℚ) (th : ℚ)
    (hs : List (Nat × ClassRecH β)) (σ : DetStore) (imgId : ℕ) (bb : β) :
    (markDetH iou th hs σ imgId bb).2 = σ ∨
    ∃ R j, hs.lookup imgId = some R ∧
      (markDetH iou th hs σ imgId bb).2
        = σ.set R.det ((σ.getD R.det []).set j true) := by
  unfold markDetH
  cases hl : hs.lookup imgId with
  | none => left; simp
  | some R =>
    cases hsc : scanMax iou bb R.bbox with
    | none => left; simp [hsc]
    | some mj =>
      obtain ⟨m, j⟩ := mj
      by_cases hgt : th < m
      · by_cases hdet : (σ.getD R.det []).getD j false = false
        · right
          refine ⟨R, j, rfl, ?_⟩
          simp only [List.getD_eq_getElem?_getD] at hdet
          simp [hsc, hgt, hdet]
        · left
          simp only [List.getD_eq_getElem?_getD] at hdet
          simp [hsc, hgt, hdet]
      · left; simp [hsc, hgt]

lemma markDet_sim {β : Type} (iou : β → β → ℚ) (th : ℚ) (imgId : ℕ) (bb : β) :
    ∀ (ps : List (Nat × ClassRec β)) (hs : List (Nat × ClassRecH β)) (σ : DetStore),
      StoreInv σ ps hs →
      (markDet iou th ps imgId bb).1 = (markDetH iou th hs σ imgId bb).1 ∧
      StoreInv (markDetH iou th hs σ imgId bb).2 (markDet iou th ps imgId bb).2 hs := by
  intro ps
  induction ps with
  | nil =>
    intro hs σ hinv
    obtain ⟨hf, hpw⟩ := hinv
    cases hf
    refine ⟨by simp [markDet, markDetH, List.lookup], ?_⟩
    have h2 : (markDetH iou th [] σ imgId bb).2 = σ := by simp [markDetH, List.lookup]
    have h1 : (markDet iou th ([] : List (Nat × ClassRec β)) imgId bb).2 = [] := by
      simp [markDet, List.lookup]
    rw [h1, h2]
    exact ⟨List.Forall₂.nil, by simp⟩
  | cons p ps' ih =>
    intro hs σ hinv
    obtain ⟨hf, hpw⟩ := hinv
    cases hs with
    | nil => cases hf
    | cons h hs' =>
      have hpwc := hpw
      obtain ⟨hrel, hrest⟩ := List.forall₂_cons.1 hf
      simp only [List.map_cons] at hpw
      rw [List.pairwise_cons] at hpw
      obtain ⟨hhd, htl⟩ := hpw
      obtain ⟨pk, pR⟩ := p
      obtain ⟨hk, hR⟩ := h
      obtain ⟨hrel1, hrel2, hrel3, hrel4⟩ := hrel
      have hrel1' : pk = hk := hrel1
      have hrel2' : pR.bbox = hR.bbox := hrel2
      have hrel3' : hR.det < σ.length := hrel3
      have hrel4' : σ.getD hR.det [] = pR.det := hrel4
      have hhd' : ∀ r ∈ hs'.map (fun x => x.2.det), hR.det ≠ r := by
        intro r hr
        exact hhd r hr
      by_cases hkey : pk = imgId
      · -- the looked-up record is the head
        have hkeyH : hk = imgId := hrel1' ▸ hkey
        have hb1 : (imgId == pk) = true := beq_iff_eq.mpr hkey.symm
        have hb2 : (imgId == hk) = true := beq_iff_eq.mpr hkeyH.symm
        cases hsc : scanMax iou bb hR.bbox with
        | none =>
          have hscp : scanMax iou bb pR.bbox = none := by rw [hrel2']; exact hsc
          have hpure : markDet iou th ((pk, pR) :: ps') imgId bb
              = ((0, 1), (pk, pR) :: ps') := by
            unfold markDet
            rw [List.lookup_cons]
            simp [hb1, hscp]
          have hheap : markDetH iou th ((hk, hR) :: hs') σ imgId bb = ((0, 1), σ) := by
            unfold markDetH
            rw [List.lookup_cons]
            simp [hb2, hsc]
          rw [hpure, hheap]
          exact ⟨rfl, hf, hpwc⟩
        | some mj =>
          obtain ⟨m, j⟩ := mj
          have hscp : scanMax iou bb pR.bbox = some (m, j) := by rw [hrel2']; exact hsc
          by_cases hgt : th < m
          · by_cases hdet : (σ.getD hR.det []).getD j false = false
            · -- true positive: the mask cell is updated in both models
              have hdetp : pR.det.getD j false = false := by rw [← hrel4']; exact hdet
              have hpure : markDet iou th ((pk, pR) :: ps') imgId bb
                  = ((1, 0), (pk, ⟨pR.bbox, pR.det.set j true⟩) :: ps') := by
                unfold markDet
                rw [List.lookup_cons]
                simp only [hb1]
                simp only [List.getD_eq_getElem?_getD] at hdetp
                simp [hscp, hgt, hdetp, setDet, hkey]
              have hheap : markDetH iou th ((hk, hR) :: hs') σ imgId bb
                  = ((1, 0), σ.set hR.det ((σ.getD hR.det []).set j true)) := by
                unfold markDetH
                rw [List.lookup_cons]
                simp only [hb2]
                simp only [List.getD_eq_getElem?_getD] at hdet
                simp [hsc, hgt, hdet]
              rw [hpure, hheap]
              refine ⟨rfl, ?_, ?_⟩
              · refine List.forall₂_cons.2 ⟨?_, ?_⟩
                · refine ⟨hrel1', hrel2', by simpa using hrel3', ?_⟩
                  show (σ.set hR.det ((σ.getD hR.det []).set j true)).getD hR.det []
                      = pR.det.set j true
                  rw [getD_set_self σ hR.det _ hrel3', hrel4']
                · refine forall2_mem_imp hrest ?_
                  intro a b _ hb hab
                  obtain ⟨g1, g2, g3, g4⟩ := hab
                  have hne : hR.det ≠ b.2.det :=
                    hhd' b.2.det (List.mem_map_of_mem (fun x => x.2.det) hb)
                  refine ⟨g1, g2, by simpa using g3, ?_⟩
                  show (σ.set hR.det ((σ.getD hR.det []).set j true)).getD b.2.det []
                      = a.2.det
                  rw [getD_set_ne σ hR.det b.2.det _ hne]
                  exact g4
              · exact hpwc
            · -- ground truth already claimed: false positive, no write
              have hdetp : ¬ pR.det.getD j false = false := by rw [← hrel4']; exact hdet
              have hpure : markDet iou th ((pk, pR) :: ps') imgId bb
                  = ((0, 1), (pk, pR) :: ps') := by
                unfold markDet
                rw [List.lookup_cons]
                simp only [hb1]
                simp only [List.getD_eq_getElem?_getD] at hdetp
                simp [hscp, hgt, hdetp]
              have hheap : markDetH iou th ((hk, hR) :: hs') σ imgId bb = ((0, 1), σ) := by
                unfold markDetH
                rw [List.lookup_cons]
                simp only [hb2]
                simp only [List.getD_eq_getElem?_getD] at hdet
                simp [hsc, hgt, hdet]
              rw [hpure, hheap]
              exact ⟨rfl, hf, hpwc⟩
          · have hpure : markDet iou th ((pk, pR) :: ps') imgId bb
                = ((0, 1), (pk, pR) :: ps') := by
              unfold markDet
              rw [List.lookup_cons]
              simp only [hb1]
              simp [hscp, hgt]
            have hheap : markDetH iou th ((hk, hR) :: hs') σ imgId bb = ((0, 1), σ) := by
              unfold markDetH
              rw [List.lookup_cons]
              simp only [hb2]
              simp [hsc, hgt]
            rw [hpure, hheap]
            exact ⟨rfl, hf, hpwc⟩
      · -- the head is skipped in both models
        have hkeyH : hk ≠ imgId := fun hh => hkey (hrel1' ▸ hh)
        rw [markDet_cons_ne iou th pk pR ps' imgId bb hkey,
          markDetH_cons_ne iou th hk hR hs' σ imgId bb hkeyH]
        obtain ⟨ihtf, ihf, ihpw⟩ := ih hs' σ ⟨hrest, htl⟩
        refine ⟨ihtf, ?_, ?_⟩
        · refine List.forall₂_cons.2 ⟨?_, ihf⟩
          rcases markDetH_store iou th hs' σ imgId bb with heq | ⟨R2, j2, hl2, heq⟩
          · rw [heq]
            exact ⟨hrel1', hrel2', hrel3', hrel4'⟩
          · rw [heq]
            obtain ⟨k2, hk2mem⟩ := lookup_mem hs' imgId R2 hl2
            have hne : hR.det ≠ R2.det :=
              hhd' R2.det (List.mem_map_of_mem (fun x => x.2.det) hk2mem)
            refine ⟨hrel1', hrel2', by simpa using hrel3', ?_⟩
            show (σ.set R2.det ((σ.getD R2.det []).set j2 true)).getD hR.det [] = pR.det
            rw [getD_set_ne σ R2.det hR.det _ (fun hh => hne hh.symm)]
            exact hrel4'
        · -- the record list is unchanged, so the address list is too
          exact hpwc

lemma matchPass_sim {β : Type} (iou : β → β → ℚ) (th : ℚ) :
    ∀ (ds : List (Nat × ℚ × β)) (ps : List (Nat × ClassRec β))
      (hs : List (Nat × ClassRecH β)) (σ : DetStore),
      StoreInv σ ps hs →
      (matchPass iou th ps ds).1 = (matchPassH iou th hs σ ds).1 := by
  intro ds
  induction ds with
  | nil => intro ps hs σ _; simp [matchPass, matchPassH]
  | cons d rest ih =>
    intro ps hs σ hinv
    obtain ⟨htf, hinv2⟩ := markDet_sim iou th d.1 d.2.2 ps hs σ hinv
    simp only [matchPass, matchPassH]
    rw [htf, ih _ _ _ hinv2]

lemma eval_det_cls_h_fst {β : Type} (iou : β → β → ℚ) (pred : PredMap β)
    (gt : GtMap β) (th : ℚ) (m : Bool) (σ₀ : DetStore) :
    (eval_det_cls_h iou pred gt th m σ₀).1 = eval_det_cls iou pred gt th m := by
  unfold eval_det_cls_h eval_det_cls
  simp only []
  rw [← matchPass_sim iou th (sortDets (dets pred)) (buildClassRecs pred gt)
    (buildRecsH pred gt σ₀).1 (buildRecsH pred gt σ₀).2 (build_inv pred gt σ₀)]

lemma take_set_of_le {α : Type} (l : List α) (n i : ℕ) (a : α) (h : n ≤ i) :
    (l.set i a).take n = l.take n := by
  apply List.ext_getElem?
  intro m
  rw [List.getElem?_take, List.getElem?_take]
  by_cases hm : m < n
  · simp [hm, List.getElem?_set_ne (by omega : i ≠ m)]
  · simp [hm]

lemma markDetH_frame {β : Type} (iou : β → β → ℚ) (th : ℚ)
    (hs : List (Nat × ClassRecH β)) (σ : DetStore) (imgId : ℕ) (bb : β) (n₀ : ℕ)
    (hge : ∀ g ∈ hs, n₀ ≤ (g : Nat × ClassRecH β).2.det) :
    (markDetH iou th hs σ imgId bb).2.take n₀ = σ.take n₀ ∧
    (markDetH iou th hs σ imgId bb).2.length = σ.length := by
  rcases markDetH_store iou th hs σ imgId bb with heq | ⟨R, j, hl, heq⟩
  · rw [heq]; exact ⟨rfl, rfl⟩
  · rw [heq]
    obtain ⟨k, hmem⟩ := lookup_mem hs imgId R hl
    have hn : n₀ ≤ R.det := hge (k, R) hmem
    exact ⟨take_set_of_le σ n₀ R.det _ hn, by simp⟩

lemma matchPassH_frame {β : Type} (iou : β → β → ℚ) (th : ℚ)
    (ds : List (Nat × ℚ × β)) (hs : List (Nat × ClassRecH β)) (n₀ : ℕ)
    (hge : ∀ g ∈ hs, n₀ ≤ (g : Nat × ClassRecH β).2.det) :
    ∀ (σ : DetStore),
      (matchPassH iou th hs σ ds).2.take n₀ = σ.take n₀ ∧
      (matchPassH iou th hs σ ds).2.length = σ.length := by
  induction ds with
  | nil => intro σ; simp [matchPassH]
  | cons d rest ih =>
    intro σ
    simp only [matchPassH]
    obtain ⟨h1, h2⟩ := markDetH_frame iou th hs σ d.1 d.2.2 n₀ hge
    obtain ⟨h3, h4⟩ := ih (markDetH iou th hs σ d.1 d.2.2).2
    exact ⟨h3.trans h1, h4.trans h2⟩

lemma buildRecsH_refs_ge {β : Type} (pred : PredMap β) (gt : GtMap β) (σ₀ : DetStore) :
    ∀ g ∈ (buildRecsH pred gt σ₀).1, σ₀.length ≤ (g : Nat × ClassRecH β).2.det := by
  intro g hg
  have hmap : g.2.det ∈ ((buildRecsH pred gt σ₀).1).map (fun h => h.2.det) :=
    List.mem_map_of_mem _ hg
  unfold buildRecsH at hmap
  simp only [List.map_append] at hmap
  rw [allocRecs_refs, allocRecs_refs] at hmap
  have hlen : ((allocRecs gt σ₀).2).length = σ₀.length + gt.length := by
    rw [allocRecs_store]; simp
  rcases List.mem_append.1 hmap with hm | hm
  · obtain ⟨i, _, hi⟩ := List.mem_range'.1 hm
    omega
  · rw [hlen] at hm
    obtain ⟨i, _, hi⟩ := List.mem_range'.1 hm
    omega

lemma buildRecsH_store {β : Type} (pred : PredMap β) (gt : GtMap β) (σ₀ : DetStore) :
    ∃ Δ, (buildRecsH pred gt σ₀).2 = σ₀ ++ Δ := by
  unfold buildRecsH
  simp only []
  rw [allocRecs_store, allocRecs_store, List.append_assoc]
  exact ⟨_, rfl⟩

/-- C9: the per-class evaluator holds no state across calls. In the store
model a call only reads and writes the mask cells it freshly allocates, so
a second call with identical inputs, run on the store left behind by the
first call, returns identical outputs — both calls agree with the pure
eval_det_cls, since the class records are rebuilt from scratch on every
call. -/
theorem claim_C9 {β : Type} (iou : β → β → ℚ) (pred : PredMap β) (gt : GtMap β)
    (th : ℚ) (m : Bool) (σ₀ : DetStore) :
    (eval_det_cls_h iou pred gt th m σ₀).1
      = (eval_det_cls_h iou pred gt th m (eval_det_cls_h iou pred gt th m σ₀).2).1 ∧
    (eval_det_cls_h iou pred gt th m σ₀).1 = eval_det_cls iou pred gt th m := by
  refine ⟨?_, eval_det_cls_h_fst iou pred gt th m σ₀⟩
  rw [eval_det_cls_h_fst, eval_det_cls_h_fst]

/-- C10: the evaluator leaves its inputs unchanged. In the store model the
final store extends the initial one: every pre-existing cell — in
particular everything the pred and gt arguments refer to — is untouched,
because np.array(gt[img_id]) copies the boxes and the matched masks are
freshly allocated lists, and the matching pass writes only to those fresh
cells. -/
theorem claim_C10 {β : Type} (iou : β → β → ℚ) (pred : PredMap β) (gt : GtMap β)
    (th : ℚ) (m : Bool) (σ₀ : DetStore) :
    ∃ Δ, (eval_det_cls_h iou pred gt th m σ₀).2 = σ₀ ++ Δ := by
  obtain ⟨Δ₀, hΔ₀⟩ := buildRecsH_store pred gt σ₀
  have hge := buildRecsH_refs_ge pred gt σ₀
  have hframe := (matchPassH_frame iou th (sortDets (dets pred))
    (buildRecsH pred gt σ₀).1 σ₀.length hge (buildRecsH pred gt σ₀).2)
  have hfinal : (eval_det_cls_h iou pred gt th m σ₀).2
      = (matchPassH iou th (buildRecsH pred gt σ₀).1 (buildRecsH pred gt σ₀).2
          (sortDets (dets pred))).2 := rfl
  rw [hfinal]
  have htake : (matchPassH iou th (buildRecsH pred gt σ₀).1 (buildRecsH pred gt σ₀).2
      (sortDets (dets pred))).2.take σ₀.length = σ₀ := by
    rw [hframe.1, hΔ₀]
    exact List.take_left σ₀ Δ₀
  refine ⟨(matchPassH iou th (buildRecsH pred gt σ₀).1 (buildRecsH pred gt σ₀).2
      (sortDets (dets pred))).2.drop σ₀.length, ?_⟩
  conv_lhs => rw [← List.take_append_drop σ₀.length
    (matchPassH iou th (buildRecsH pred gt σ₀).1 (buildRecsH pred gt σ₀).2
      (sortDets (dets pred))).2]
  rw [htake]

end EvalDet
